import Mathlib

/-!
Formal model of the deepcpg data-preparation pipeline: the alignment and
feature-extraction functions of `scripts/dcpg_data.py` and the chunked-store
reader and writer of `deepcpg/data/hdf.py`.

Modelling conventions: Lean lists model numpy 1-D arrays, lists of lists model
2-D arrays (rows first), `ℚ` models Python floats, and `Except PyExc` models
code that can raise an exception.  Randomness (`np.random`) is modelled by an
explicitly passed draw function or permutation, quantified over in theorems.
-/

namespace DeepCpg

/-- Python exceptions raised by the modelled code. -/
inductive PyExc
  | typeError (msg : String)
  | valueError (msg : String)
  | assertionError
  deriving DecidableEq, Repr

/-- Python `int(x)` / numpy `.astype(<integer dtype>)`: truncation toward zero. -/
def pyInt (q : ℚ) : ℤ := if 0 ≤ q then ⌊q⌋ else ⌈q⌉

/-- Modelled from the spec: the missing-value sentinel `dat.CPG_NAN` (the
`deepcpg.data` package constants are not in `src/`); the spec fixes it as one
reserved numeric constant distinct from all valid domain values (methylation
states 0/1, distances > 0), hence a negative integer. -/
def CPG_NAN : ℤ := -1

/-! ### PositionGrid builder: `prepro_pos_table` (dcpg_data.py lines 21-37) -/

/-- Sorted insertion of one value into a sorted duplicate-free list, dropping
the value when already present.  Used to build the model of `np.unique`. -/
def insert_uniq {α : Type} [LinearOrder α] (x : α) : List α → List α
  | [] => [x]
  | y :: t => if x < y then x :: y :: t else if x = y then y :: t else y :: insert_uniq x t

/-- Model of `np.unique`: the sorted list of distinct values of the input. -/
def np_unique {α : Type} [LinearOrder α] (l : List α) : List α := l.foldr insert_uniq []

/-- Lexicographic `(chromo, pos)` order used by `sort_values(['chromo', 'pos'])`. -/
def lex_le (a b : String × ℤ) : Bool := decide (a.1 < b.1 ∨ (a.1 = b.1 ∧ a.2 ≤ b.2))

/-- Strict lexicographic `(chromo, pos)` order. -/
def lex_lt (a b : String × ℤ) : Prop := a.1 < b.1 ∨ (a.1 = b.1 ∧ a.2 < b.2)

instance : DecidableRel lex_lt := fun a b => by unfold lex_lt; infer_instance

/-- Stable insertion for the insertion sort modelling `sort_values`. -/
def insert_le {α : Type} (le : α → α → Bool) (x : α) : List α → List α
  | [] => [x]
  | y :: t => if le x y then x :: y :: t else y :: insert_le le x t

/-- Insertion sort, the model of a pandas stable sort. -/
def insertion_sort {α : Type} (le : α → α → Bool) : List α → List α
  | [] => []
  | x :: t => insert_le le x (insertion_sort le t)

/-- `DataFrame.sort_values(['chromo', 'pos'])` on a two-column position table. -/
def sort_values (t : List (String × ℤ)) : List (String × ℤ) := insertion_sort lex_le t

/-- `prepro_pos_table` (dcpg_data.py lines 21-37) on a single position table:
group by chromosome (pandas `groupby` visits keys in sorted order), replace each
group by the sorted unique positions (`np.unique`), re-flatten, and sort the
result by `(chromo, pos)`. -/
def prepro_pos_table (t : List (String × ℤ)) : List (String × ℤ) :=
  let chromos := np_unique (t.map Prod.fst)
  let grouped := chromos.flatMap fun c =>
    (np_unique ((t.filter fun r => decide (r.1 = c)).map Prod.snd)).map fun p => (c, p)
  sort_values grouped

/-! ### ValueAligner: `map_values` (dcpg_data.py lines 98-118) -/

/-- `np.all(x == np.sort(x))`: the array is non-strictly sorted. -/
def np_is_sorted : List ℤ → Bool
  | [] => true
  | [_] => true
  | a :: b :: t => decide (a ≤ b) && np_is_sorted (b :: t)

/-- numpy fancy-index assignment `target_values[idx] = values`, given as a list
of `(index, value)` pairs applied in order. -/
def scatter {α : Type} (base : List α) (asg : List (ℕ × α)) : List α :=
  asg.foldl (fun acc p => acc.set p.1 p.2) base

/-- `map_values` (dcpg_data.py lines 98-118): keep the `(pos, value)` pairs whose
position occurs in `target_pos` (`np.in1d`), fill a `len(target_pos)` result
with the `nan` sentinel, and scatter the kept values at the indices of
`target_pos` that occur in the kept positions.  The Python `assert` statements
become `assertionError` results. -/
def map_values {α : Type} (values : List α) (pos : List ℤ)
    (target_pos : List ℤ) (nan : α) : Except PyExc (List α) :=
  if values.length ≠ pos.length then .error .assertionError
  else if ¬ np_is_sorted pos then .error .assertionError
  else if ¬ np_is_sorted target_pos then .error .assertionError
  else
    let pv := (pos.zip values).filter fun x => target_pos.contains x.1
    let pos2 := pv.map Prod.fst
    let values2 := pv.map Prod.snd
    let idx := (List.range target_pos.length).filter fun i => pos2.contains (target_pos.getD i 0)
    if idx.length ≠ values2.length then .error .assertionError
    else if idx.map (fun i => target_pos.getD i 0) ≠ pos2 then .error .assertionError
    else .ok (scatter (List.replicate target_pos.length nan) (idx.zip values2))

/-! ### StatisticsEngine: `mode` (dcpg_data.py lines 166-169) -/

/-- Row mean of a masked row: `np.ma.masked_values(row, CPG_NAN)` followed by
`.mean(axis=1)` — the average of the non-sentinel entries. -/
def masked_mean (row : List ℤ) : ℚ :=
  let v := row.filter fun x => decide (x ≠ CPG_NAN)
  (v.sum : ℚ) / (v.length : ℚ)

/-- The `mode` statistic (dcpg_data.py lines 166-169):
`x.mean(axis).astype(np.int8)` — the row mean truncated toward zero by the
integer cast. -/
def mode (row : List ℤ) : ℤ := pyInt (masked_mean row)

/-! ### CoverageFilter (dcpg_data.py lines 356-372) -/

/-- `cpg_mat.shape[1]`: the number of cells (columns). -/
def nb_cell (mat : List (List ℤ)) : ℕ := (mat.headD []).length

/-- One entry of `np.sum(cpg_mat != dat.CPG_NAN, axis=1)`: the count of
non-sentinel entries in a row. -/
def row_coverage (row : List ℤ) : ℕ := (row.filter fun x => decide (x ≠ CPG_NAN)).length

/-- Threshold conversion (dcpg_data.py lines 357-361): a fractional
`min_cpg_cov < 1` becomes `max(int(nb_cell * min_cpg_cov), 1)`;
otherwise the value is used unchanged. -/
def min_cov_threshold (min_cpg_cov : ℚ) (nb : ℕ) : ℚ :=
  if min_cpg_cov < 1 then ((max (pyInt ((nb : ℚ) * min_cpg_cov)) 1 : ℤ) : ℚ) else min_cpg_cov

/-- The keep-mask of the coverage filter (dcpg_data.py lines 362-364):
`idx = np.sum(cpg_mat != dat.CPG_NAN, axis=1)`, then
`assert np.all(idx.sum() >= 1)` — a fully-unobserved matrix (total observation
count zero) raises `AssertionError` — then the mask `idx >= min_cpg_cov`. -/
def coverage_mask (mat : List (List ℤ)) (min_cpg_cov : ℚ) : Except PyExc (List Bool) :=
  let idx := mat.map row_coverage
  if 1 ≤ idx.sum then
    .ok (mat.map fun row =>
      decide (min_cov_threshold min_cpg_cov (nb_cell mat) ≤ (row_coverage row : ℚ)))
  else .error .assertionError

/-- Boolean-mask indexing `chromo_pos[idx]` (dcpg_data.py line 371). -/
def mask_select {α : Type} (xs : List α) (mask : List Bool) : List α :=
  ((xs.zip mask).filter fun p => p.2).map Prod.fst

/-! ### Option checks of `App.main` (dcpg_data.py lines 290-293) -/

/-- Python 3 semantics of `raise <string>`: a string does not derive from
`BaseException`, so the interpreter raises
`TypeError('exceptions must derive from BaseException')` and the string itself
is never shown as the error message. -/
def raise_str (_s : String) : PyExc := .typeError "exceptions must derive from BaseException"

/-- The window-length option checks (dcpg_data.py lines 290-293); `0` models an
unset (falsy) option value. -/
def check_wlen_opts (dna_wlen cpg_wlen : ℤ) : Except PyExc Unit :=
  if dna_wlen ≠ 0 ∧ dna_wlen % 2 = 0 then .error (raise_str "--dna_wlen must be odd!")
  else if cpg_wlen ≠ 0 ∧ cpg_wlen % 2 ≠ 0 then .error (raise_str "--cpg_wlen must be even!")
  else .ok ()

/-- Modelled from the spec: the configuration error the spec prescribes for an
even DNA window length — fail fast with a message identifying the offending
option. -/
def check_wlen_opts_spec (dna_wlen cpg_wlen : ℤ) : Except PyExc Unit :=
  if dna_wlen ≠ 0 ∧ dna_wlen % 2 = 0 then .error (.valueError "--dna_wlen must be odd!")
  else if cpg_wlen ≠ 0 ∧ cpg_wlen % 2 ≠ 0 then .error (.valueError "--cpg_wlen must be even!")
  else .ok ()

/-! ### SequenceWindowExtractor: `extract_seq_windows` (dcpg_data.py lines 60-95) -/

/-- DNA symbols of the (upper-cased) reference sequence. -/
inductive DnaBase
  | A
  | T
  | G
  | C
  | N
  deriving DecidableEq, Repr

/-- Modelled from the spec: the `deepcpg.data.dna` encoding (the module is not
in `src/`).  The alphabet {A,C,G,T} is encoded 0..3 with an internal sentinel
code for the unknown symbol `N`; the orientation is fixed by the source's own
asserts (`seq_wins[:, delta] == 3` for the `C` and `== 2` for the `G` of a CpG
site). -/
def CHAR_TO_INT : DnaBase → ℕ
  | .A => 0
  | .T => 1
  | .G => 2
  | .C => 3
  | .N => 4

/-- `dna.char2int`: elementwise encoding of a symbol string. -/
def char2int (s : List DnaBase) : List ℕ := s.map CHAR_TO_INT

/-- Python slice `l[a:b]` for non-negative bounds. -/
def pySlice {α : Type} (l : List α) (a b : ℕ) : List α := (l.drop a).take (b - a)

/-- The window slice-and-pad step of `extract_seq_windows`
(dcpg_data.py lines 82-86) at 0-based position `p`:
`win = seq[max(0, p - delta) : min(len(seq), p + delta + 1)]`, padded on the
short sides with the unknown symbol when shorter than `wlen`. -/
def seq_window (seq : List DnaBase) (p wlen : ℕ) : List DnaBase :=
  let delta := wlen / 2
  let win := pySlice seq (p - delta) (min seq.length (p + delta + 1))
  if win.length < wlen then
    List.replicate (delta - p) DnaBase.N ++ win ++
      List.replicate (p + delta + 1 - seq.length) DnaBase.N
  else win

/-- The body of the per-position loop of `extract_seq_windows`
(dcpg_data.py lines 78-87) at 0-based index `p`: the CpG-site check, then the
slice-and-pad window with its `assert len(win) == wlen` (a width mismatch —
which also models the numpy row-assignment shape requirement — is an
`assertionError`). -/
def extract_one (seq : List DnaBase) (p wlen : ℕ) (cpg_sites : Bool) :
    Except PyExc (List DnaBase) :=
  if cpg_sites ∧ pySlice seq p (p + 2) ≠ [DnaBase.C, DnaBase.G] then
    .error (.valueError ("No CpG at position " ++ toString p ++ "!"))
  else if (seq_window seq p wlen).length = wlen then .ok (seq_window seq p wlen)
  else .error .assertionError

/-- Replacement of unknown-symbol codes (dcpg_data.py lines 88-90): every
entry equal to `CHAR_TO_INT['N'] = 4` becomes the next random draw from
`np.random.randint(0, 4, ...)`, numbered left to right; other entries are kept.
Returns the new row and the updated draw counter. -/
def replaceN_row (rnd : ℕ → ℕ) : List ℕ → ℕ → List ℕ × ℕ
  | [], k => ([], k)
  | v :: rest, k =>
    if v = 4 then
      let r := replaceN_row rnd rest (k + 1)
      (rnd k % 4 :: r.1, r.2)
    else
      let r := replaceN_row rnd rest k
      (v :: r.1, r.2)

/-- Row-major replacement of unknown-symbol codes over the whole window
matrix. -/
def replaceN_mat (rnd : ℕ → ℕ) : List (List ℕ) → ℕ → List (List ℕ)
  | [], _ => []
  | row :: rest, k =>
    let r := replaceN_row rnd row k
    r.1 :: replaceN_mat rnd rest r.2

/-- Effectful map over a list, stopping at the first raised exception (the
semantics of a Python `for` loop whose body may raise). -/
def mapExcept {α β : Type} (f : α → Except PyExc β) : List α → Except PyExc (List β)
  | [] => .ok []
  | a :: rest =>
    match f a with
    | .error e => .error e
    | .ok b =>
      match mapExcept f rest with
      | .error e => .error e
      | .ok bs => .ok (b :: bs)

/-- `extract_seq_windows` (dcpg_data.py lines 60-95): extract one window per
position (`p = pos[i] - seq_index`), encode, randomly resolve unknown symbols,
and run the final asserts (`seq_wins.max() < 4`; with `cpg_sites`, the two
center columns are the codes of `C` and `G`). -/
def extract_seq_windows (seq : List DnaBase) (pos : List ℕ) (wlen : ℕ)
    (seq_index : ℕ) (cpg_sites : Bool) (rnd : ℕ → ℕ) : Except PyExc (List (List ℕ)) :=
  let delta := wlen / 2
  match mapExcept (fun q => extract_one seq (q - seq_index) wlen cpg_sites) pos with
  | .error e => .error e
  | .ok wins =>
    let mat := replaceN_mat rnd (wins.map char2int) 0
    if ¬ mat.all fun r => r.all fun v => decide (v < 4) then .error .assertionError
    else if cpg_sites ∧
        ¬ mat.all fun r => decide (r.getD delta 0 = 3 ∧ r.getD (delta + 1) 0 = 2) then
      .error .assertionError
    else .ok mat

/-! ### ChunkedStore reader: `reader`, `read_from`, `read` (hdf.py lines 67-181)

A container is modelled as the list of its samples; one sample stands for one
row across all requested keys, so per-key counts coincide with sample counts. -/

/-- Total number of samples over a list of containers, measured as `reader`
measures it. -/
def total_len {α : Type} (files : List (List α)) : ℕ := (files.map List.length).sum

/-- Prefix selection of `reader` (hdf.py lines 76-88): the first containers
whose cumulative sample count reaches `nb_sample`; all of them when the total
stays below it. -/
def select_files {α : Type} : List (List α) → ℕ → List (List α)
  | [], _ => []
  | f :: rest, cap => if cap ≤ f.length then [f] else f :: select_files rest (cap - f.length)

/-- `nb_batch = int(np.ceil(nb_sample_file / batch_size))`. -/
def nb_batch (n bs : ℕ) : ℕ := (n + bs - 1) / bs

/-- The batch loop over one open container (hdf.py lines 112-128): `fuel`
starts at `nb_batch`, `batch` is the loop index, `seen` is `nb_seen`.  Each
step yields `file[batch_start : batch_end]` with
`batch_end = min(nb_sample_file, batch_start + min(nb_sample - nb_seen,
batch_size))`, breaking on an empty batch or once the cap is reached.
Returns the yielded batches and the updated `nb_seen`. -/
def file_batches_go {α : Type} (file : List α) (bs cap : ℕ) :
    ℕ → ℕ → ℕ → List (List α) × ℕ
  | 0, _batch, seen => ([], seen)
  | fuel + 1, batch, seen =>
    let batch_start := batch * bs
    let nb_read := min (cap - seen) bs
    let batch_end := min file.length (batch_start + nb_read)
    let bsz := batch_end - batch_start
    if bsz = 0 then ([], seen)
    else
      let b := (file.drop batch_start).take bsz
      let seen' := seen + bsz
      if cap ≤ seen' then ([b], seen')
      else
        let r := file_batches_go file bs cap fuel (batch + 1) seen'
        (b :: r.1, r.2)

/-- The batch loop of one container, started at batch index 0. -/
def file_batches {α : Type} (file : List α) (bs cap seen : ℕ) : List (List α) × ℕ :=
  file_batches_go file bs cap (nb_batch file.length bs) 0 seen

/-- The container loop of `reader` (hdf.py lines 94-140) for `loop=False`:
one pass over the already selected containers.  `permRows i` is the in-memory
row shuffle of the `i`-th visited container (hdf.py lines 104-110; the identity
when `shuffle=False`).  Iteration ends when the cap is reached or the list is
exhausted. -/
def reader_pass {α : Type} (bs cap : ℕ) (permRows : ℕ → List α → List α) :
    List (List α) → ℕ → ℕ → List (List α)
  | [], _i, _seen => []
  | f :: rest, i, seen =>
    let r := file_batches (permRows i f) bs cap seen
    if cap ≤ r.2 then r.1 else r.1 ++ reader_pass bs cap permRows rest (i + 1) r.2

/-- `reader` (hdf.py lines 67-140) with a truthy `nb_sample` cap and
`loop=False`: select the container prefix reaching the cap, shuffle the
selected containers (`permFiles`, applied once at the start of the single pass;
the identity when `shuffle=False`), then run the batch loop. -/
def reader {α : Type} (data_files : List (List α)) (bs cap : ℕ)
    (permFiles : List (List α) → List (List α))
    (permRows : ℕ → List α → List α) : List (List α) :=
  reader_pass bs cap permRows (permFiles (select_files data_files cap)) 0 0

/-- The drain loop of `read_from` (hdf.py lines 156-165): append every batch,
breaking once the cumulative count reaches a truthy `nb_sample`; the collected
batches are then stacked (concatenated). -/
def read_from_go {α : Type} (cap : ℕ) : List (List α) → ℕ → List α
  | [], _seen => []
  | b :: rest, seen =>
    let seen' := seen + b.length
    if cap ≠ 0 ∧ cap ≤ seen' then b else b ++ read_from_go cap rest seen'

/-- `read_from` (hdf.py lines 149-175): stack the collected batches and, for a
truthy `nb_sample`, truncate each key to `nb_sample`. -/
def read_from {α : Type} (batches : List (List α)) (cap : ℕ) : List α :=
  let d := read_from_go cap batches 0
  if cap ≠ 0 then d.take cap else d

/-- `read` (hdf.py lines 178-181): `read_from(reader(..., loop=False),
nb_sample)`. -/
def read {α : Type} (data_files : List (List α)) (bs cap : ℕ)
    (permFiles : List (List α) → List (List α))
    (permRows : ℕ → List α → List α) : List α :=
  read_from (reader data_files bs cap permFiles permRows) cap

/-! ### `reader` and the caller's `data_files` object (hdf.py lines 67-96) -/

/-- A tiny heap of Python list objects: enough state to say which list object a
mutation touches. -/
structure PyListHeap where
  cells : List (List String)

/-- Dereference a list object. -/
def heap_get (h : PyListHeap) (r : ℕ) : List String := h.cells.getD r []

/-- In-place update of a list object. -/
def heap_set (h : PyListHeap) (r : ℕ) (v : List String) : PyListHeap := ⟨h.cells.set r v⟩

/-- Allocate a fresh list object; returns the new heap and the reference. -/
def heap_alloc (h : PyListHeap) (v : List String) : PyListHeap × ℕ :=
  (⟨h.cells ++ [v]⟩, h.cells.length)

/-- `np.random.shuffle(lst)` permutes the referenced list **in place**. -/
def np_random_shuffle (h : PyListHeap) (r : ℕ) (perm : List String → List String) :
    PyListHeap :=
  heap_set h r (perm (heap_get h r))

/-- Name-level prefix selection of `reader` (hdf.py lines 76-88), with `sizes`
giving each container's sample count. -/
def select_names (sizes : String → ℕ) : List String → ℕ → List String
  | [], _ => []
  | f :: rest, cap => if cap ≤ sizes f then [f] else f :: select_names sizes rest (cap - sizes f)

/-- The file-list handling of `reader` (hdf.py lines 67-96): copy the caller's
list into a private one (`data_files = list(data_files)`, line 72), optionally
rebind to the freshly built prefix list `_data_files` (lines 79-88), then
shuffle the private list in place once per restart of the visitation loop
(lines 95-96, one entry of `shuffles` per restart). -/
def reader_files_effect (h : PyListHeap) (arg : ℕ) (nb_sample_set : Bool)
    (sizes : String → ℕ) (cap : ℕ)
    (shuffles : List (List String → List String)) : PyListHeap :=
  let a1 := heap_alloc h (heap_get h arg)
  let a2 :=
    if nb_sample_set then heap_alloc a1.1 (select_names sizes (heap_get a1.1 a1.2) cap)
    else a1
  shuffles.foldl (fun hh perm => np_random_shuffle hh a2.2 perm) a2.1

/-! ### ChunkedStore writer: `write_data` (hdf.py lines 38-48) -/

/-- A nested Python mapping of arrays, the `data` argument of `write_data`. -/
inductive PyVal
  | arr (xs : List ℤ)
  | dict (entries : List (String × PyVal))

/-- Contents of an HDF5 group. -/
inductive H5Node
  | dataset (xs : List ℤ)
  | group (entries : List (String × H5Node))

/-- The destination argument of `write_data`:
`is_root = isinstance(filename, str)`. -/
inductive H5Dest
  | filename (s : String)
  | group

/-- `isinstance(filename, str)`. -/
def H5Dest.is_root : H5Dest → Bool
  | .filename _ => true
  | .group => false

/-- The write loop of `write_data` (hdf.py lines 41-46): a dict value becomes a
fresh sub-group filled by the recursive `write_data(value, key_group)` call
(whose destination is a group handle, never a string), a leaf value is stored
as a named array. -/
def write_entries : List (String × PyVal) → List (String × H5Node)
  | [] => []
  | (k, PyVal.dict es) :: rest => (k, H5Node.group (write_entries es)) :: write_entries rest
  | (k, PyVal.arr xs) :: rest => (k, H5Node.dataset xs) :: write_entries rest

/-- `write_data` (hdf.py lines 38-48): returns what was written into the
destination group together with whether the destination was closed
(lines 47-48: only when it was opened from a filename string). -/
def write_data (data : List (String × PyVal)) (dest : H5Dest) :
    List (String × H5Node) × Bool :=
  (write_entries data, dest.is_root)

mutual
/-- Modelled from the spec (for comparison with `write_data`): "recursively
mirrors nested mapping structure into nested addressable groups; a leaf
(non-mapping) value is stored as a named array at that path". -/
def mirrorVal : PyVal → H5Node
  | .arr xs => .dataset xs
  | .dict es => .group (mirror_entries es)

/-- Spec-side mirroring of a nested mapping's entries. -/
def mirror_entries : List (String × PyVal) → List (String × H5Node)
  | [] => []
  | (k, v) :: rest => (k, mirrorVal v) :: mirror_entries rest
end

/-! ## Helper lemmas -/

theorem sum_le_length_of_01 (v : List ℤ) (h : ∀ x ∈ v, x = 0 ∨ x = 1) :
    0 ≤ v.sum ∧ v.sum ≤ (v.length : ℤ) := by
  induction v with
  | nil => simp
  | cons a t ih =>
    have ht := ih fun x hx => h x (by simp [hx])
    rcases h a (by simp) with h' | h' <;>
      simp only [h', List.sum_cons, List.length_cons] <;> push_cast <;> omega

theorem masked_mean_eq (row : List ℤ) :
    masked_mean row = (((row.filter fun x => decide (x ≠ CPG_NAN)).sum : ℤ) : ℚ) /
      (((row.filter fun x => decide (x ≠ CPG_NAN)).length : ℕ) : ℚ) := rfl

theorem heap_get_append (h : PyListHeap) (v : List String) (arg : ℕ)
    (harg : arg < h.cells.length) :
    heap_get ⟨h.cells ++ [v]⟩ arg = heap_get h arg := by
  rw [heap_get, heap_get]
  simp [List.getD_eq_getElem?_getD, List.getElem?_append_left harg]

theorem heap_get_set_ne (h : PyListHeap) (r arg : ℕ) (v : List String) (hne : arg ≠ r) :
    heap_get (heap_set h r v) arg = heap_get h arg := by
  rw [heap_get, heap_set, heap_get]
  simp [List.getD_eq_getElem?_getD, List.getElem?_set_ne (Ne.symm hne)]

theorem fold_shuffles_get (shuffles : List (List String → List String))
    (hh : PyListHeap) (r arg : ℕ) (hne : arg ≠ r) :
    heap_get (shuffles.foldl (fun h p => np_random_shuffle h r p) hh) arg = heap_get hh arg := by
  induction shuffles generalizing hh with
  | nil => rfl
  | cons p rest ih =>
    rw [List.foldl_cons, ih]
    exact heap_get_set_ne hh r arg _ hne

theorem write_entries_eq_mirror (l : List (String × PyVal)) :
    write_entries l = mirror_entries l := by
  induction l using write_entries.induct with
  | case1 => simp [write_entries, mirror_entries]
  | case2 k es rest ih1 ih2 => simp [write_entries, mirror_entries, mirrorVal, ih1, ih2]
  | case3 k xs rest ih => simp [write_entries, mirror_entries, mirrorVal, ih]

theorem np_unique_cons {α : Type} [LinearOrder α] (a : α) (t : List α) :
    np_unique (a :: t) = insert_uniq a (np_unique t) := rfl

theorem mem_insert_uniq {α : Type} [LinearOrder α] (x z : α) (l : List α) :
    z ∈ insert_uniq x l ↔ z = x ∨ z ∈ l := by
  induction l with
  | nil => simp [insert_uniq]
  | cons y t ih =>
    rw [insert_uniq]
    split_ifs with h1 h2
    · simp [List.mem_cons]
    · subst h2
      simp only [List.mem_cons]
      tauto
    · simp only [List.mem_cons, ih]
      tauto

theorem pairwise_insert_uniq {α : Type} [LinearOrder α] (x : α) (l : List α)
    (hl : l.Pairwise (· < ·)) : (insert_uniq x l).Pairwise (· < ·) := by
  induction l with
  | nil => simp [insert_uniq]
  | cons y t ih =>
    rw [List.pairwise_cons] at hl
    rw [insert_uniq]
    split_ifs with h1 h2
    · refine List.Pairwise.cons ?_ (List.Pairwise.cons hl.1 hl.2)
      intro z hz
      rcases List.mem_cons.mp hz with rfl | hz'
      · exact h1
      · exact lt_trans h1 (hl.1 z hz')
    · exact List.Pairwise.cons hl.1 hl.2
    · have hyx : y < x := by
        rcases lt_trichotomy x y with h | h | h
        · exact absurd h h1
        · exact absurd h h2
        · exact h
      refine List.Pairwise.cons ?_ (ih hl.2)
      intro z hz
      rcases (mem_insert_uniq x z t).mp hz with rfl | hz'
      · exact hyx
      · exact hl.1 z hz'

theorem np_unique_mem {α : Type} [LinearOrder α] (l : List α) (z : α) :
    z ∈ np_unique l ↔ z ∈ l := by
  induction l with
  | nil => simp [np_unique]
  | cons a t ih =>
    rw [np_unique_cons, mem_insert_uniq, ih, List.mem_cons]

theorem np_unique_pairwise {α : Type} [LinearOrder α] (l : List α) :
    (np_unique l).Pairwise (· < ·) := by
  induction l with
  | nil => simp [np_unique]
  | cons a t ih =>
    rw [np_unique_cons]
    exact pairwise_insert_uniq a _ ih

theorem insert_uniq_of_lt {α : Type} [LinearOrder α] (x : α) (l : List α)
    (h : ∀ z ∈ l, x < z) : insert_uniq x l = x :: l := by
  cases l with
  | nil => rfl
  | cons y t => rw [insert_uniq, if_pos (h y (by simp))]

theorem np_unique_of_pairwise {α : Type} [LinearOrder α] (l : List α)
    (hl : l.Pairwise (· < ·)) : np_unique l = l := by
  induction l with
  | nil => rfl
  | cons a t ih =>
    rw [List.pairwise_cons] at hl
    rw [np_unique_cons, ih hl.2]
    exact insert_uniq_of_lt a t hl.1

theorem lex_lt_irrefl (a : String × ℤ) : ¬ lex_lt a a := by
  rintro (h | ⟨_, h⟩) <;> exact lt_irrefl _ h

theorem lex_lt_asymm (a b : String × ℤ) : lex_lt a b → lex_lt b a → False := by
  rintro (h | ⟨e, h⟩) (h' | ⟨e', h'⟩)
  · exact lt_asymm h h'
  · rw [e'] at h; exact lt_irrefl _ h
  · rw [e] at h'; exact lt_irrefl _ h'
  · omega

instance : IsAntisymm (String × ℤ) lex_lt :=
  ⟨fun a b h h' => (lex_lt_asymm a b h h').elim⟩

theorem lex_le_of_lex_lt (a b : String × ℤ) (h : lex_lt a b) : lex_le a b = true := by
  rcases h with h | ⟨e, h⟩
  · exact decide_eq_true (Or.inl h)
  · exact decide_eq_true (Or.inr ⟨e, le_of_lt h⟩)

theorem insertion_sort_of_pairwise (l : List (String × ℤ))
    (hl : l.Pairwise lex_lt) : insertion_sort lex_le l = l := by
  induction l with
  | nil => rfl
  | cons a t ih =>
    rw [List.pairwise_cons] at hl
    rw [insertion_sort, ih hl.2]
    cases t with
    | nil => rfl
    | cons b t' =>
      rw [insert_le, if_pos (lex_le_of_lex_lt a b (hl.1 b (by simp)))]

theorem pairwise_flatMap_groups (chromos : List String) (g : String → List ℤ)
    (hg : ∀ c, (g c).Pairwise (· < ·)) (hc : chromos.Pairwise (· < ·)) :
    (chromos.flatMap fun c => (g c).map fun p => (c, p)).Pairwise lex_lt := by
  induction chromos with
  | nil => simp
  | cons c cs ih =>
    rw [List.pairwise_cons] at hc
    rw [List.flatMap_cons, List.pairwise_append]
    refine ⟨?_, ih hc.2, ?_⟩
    · rw [List.pairwise_map]
      exact (hg c).imp fun h => Or.inr ⟨rfl, h⟩
    · intro a ha b hb
      obtain ⟨p, _, rfl⟩ := List.mem_map.mp ha
      obtain ⟨c', hc', hb'⟩ := List.mem_flatMap.mp hb
      obtain ⟨p', _, rfl⟩ := List.mem_map.mp hb'
      exact Or.inl (hc.1 c' hc')

theorem prepro_pos_table_eq (t : List (String × ℤ)) :
    prepro_pos_table t = (np_unique (t.map Prod.fst)).flatMap fun c =>
      (np_unique ((t.filter fun r => decide (r.1 = c)).map Prod.snd)).map fun p => (c, p) := by
  rw [prepro_pos_table]
  exact insertion_sort_of_pairwise _
    (pairwise_flatMap_groups _ _ (fun _ => np_unique_pairwise _) (np_unique_pairwise _))

theorem prepro_pairwise (t : List (String × ℤ)) :
    (prepro_pos_table t).Pairwise lex_lt := by
  rw [prepro_pos_table_eq]
  exact pairwise_flatMap_groups _ _ (fun _ => np_unique_pairwise _) (np_unique_pairwise _)

theorem mem_prepro (t : List (String × ℤ)) (r : String × ℤ) :
    r ∈ prepro_pos_table t ↔ r ∈ t := by
  rw [prepro_pos_table_eq]
  obtain ⟨c, p⟩ := r
  rw [List.mem_flatMap]
  constructor
  · rintro ⟨c', _, hm⟩
    obtain ⟨p', hp', heq⟩ := List.mem_map.mp hm
    obtain ⟨rfl, rfl⟩ : c' = c ∧ p' = p :=
      ⟨congrArg Prod.fst heq, congrArg Prod.snd heq⟩
    rw [np_unique_mem] at hp'
    obtain ⟨rp, hrp, hsnd⟩ := List.mem_map.mp hp'
    rw [List.mem_filter] at hrp
    have hfst : rp.1 = c' := by simpa using hrp.2
    have : rp = (c', p') := Prod.ext hfst hsnd
    rw [← this]
    exact hrp.1
  · intro hr
    refine ⟨c, ?_, ?_⟩
    · rw [np_unique_mem, List.mem_map]
      exact ⟨(c, p), hr, rfl⟩
    · rw [List.mem_map]
      refine ⟨p, ?_, rfl⟩
      rw [np_unique_mem, List.mem_map]
      refine ⟨(c, p), ?_, rfl⟩
      rw [List.mem_filter]
      exact ⟨hr, by simp⟩

theorem strict_sorted_eq_of_mem (l₁ l₂ : List (String × ℤ))
    (h₁ : l₁.Pairwise lex_lt) (h₂ : l₂.Pairwise lex_lt)
    (hmem : ∀ r, r ∈ l₁ ↔ r ∈ l₂) : l₁ = l₂ := by
  have nd₁ : l₁.Nodup := h₁.imp fun {a b} h => by rintro rfl; exact lex_lt_irrefl a h
  have nd₂ : l₂.Nodup := h₂.imp fun {a b} h => by rintro rfl; exact lex_lt_irrefl a h
  exact List.eq_of_perm_of_sorted ((List.perm_ext_iff_of_nodup nd₁ nd₂).mpr hmem) h₁ h₂

/-! ## Claim theorems -/

/-- C4: at the failing input `--dna_wlen 500` (an even DNA window length), the
run does fail fast before any processing, but `raise '--dna_wlen must be odd!'`
(dcpg_data.py line 291) raises a string, which Python 3 turns into
`TypeError('exceptions must derive from BaseException')`: the raised error is
not the configuration error the spec prescribes, and its message does not
identify the offending option; the same slip affects the odd `--cpg_wlen`
check on line 293. -/
theorem check_wlen_even_dna_typeerror :
    check_wlen_opts 500 0 =
      .error (.typeError "exceptions must derive from BaseException") ∧
    check_wlen_opts 501 3 =
      .error (.typeError "exceptions must derive from BaseException") ∧
    check_wlen_opts_spec 500 0 = .error (.valueError "--dna_wlen must be odd!") ∧
    check_wlen_opts 500 0 ≠ check_wlen_opts_spec 500 0 := by
  refine ⟨rfl, rfl, rfl, ?_⟩
  simp [check_wlen_opts, check_wlen_opts_spec, raise_str]

/-- C3 counterexample: for the row `[1, 1, 0]` (no masked entries) the code's
`mode` is the truncated mean `int(2/3) = 0` while the rounded mean is `1`, so
the claim "the mode statistic equals the row mean rounded to the nearest
integer" fails on this row. -/
theorem mode_round_counterexample :
    mode [1, 1, 0] = 0 ∧ round (masked_mean [1, 1, 0]) = 1 ∧
    mode [1, 1, 0] ≠ round (masked_mean [1, 1, 0]) := by
  have h1 : mode [1, 1, 0] = 0 := by
    norm_num [mode, masked_mean, CPG_NAN, List.filter, pyInt]
  have h2 : round (masked_mean [1, 1, 0]) = 1 := by
    norm_num [masked_mean, CPG_NAN, List.filter, round_eq]
  exact ⟨h1, h2, by rw [h1, h2]; decide⟩

/-- C3 (amended): the `mode` statistic is the row mean over non-masked entries
truncated toward zero (its floor, the mean being non-negative) and cast to an
integer class — not rounded — and for any row of {0, 1} values with at least
one non-masked entry the result is exactly 0 or 1. -/
theorem mode_floor_mean (row : List ℤ)
    (h01 : ∀ x ∈ row, x = CPG_NAN ∨ x = 0 ∨ x = 1)
    (hobs : ∃ x ∈ row, x ≠ CPG_NAN) :
    mode row = ⌊masked_mean row⌋ ∧ (mode row = 0 ∨ mode row = 1) := by
  have hvmem : ∀ x ∈ row.filter fun x => decide (x ≠ CPG_NAN), x = 0 ∨ x = 1 := by
    intro x hx
    rw [List.mem_filter] at hx
    rcases h01 x hx.1 with h | h | h
    · exact absurd h (by simpa using hx.2)
    · exact Or.inl h
    · exact Or.inr h
  have hvne : (row.filter fun x => decide (x ≠ CPG_NAN)) ≠ [] := by
    obtain ⟨x, hx, hxn⟩ := hobs
    intro hnil
    have hm : x ∈ row.filter fun x => decide (x ≠ CPG_NAN) :=
      List.mem_filter.mpr ⟨hx, by simpa using hxn⟩
    rw [hnil] at hm
    exact absurd hm (List.not_mem_nil x)
  have hlen : 0 < (row.filter fun x => decide (x ≠ CPG_NAN)).length :=
    List.length_pos.mpr hvne
  have hsum := sum_le_length_of_01 _ hvmem
  have hlenq : (0 : ℚ) < ((row.filter fun x => decide (x ≠ CPG_NAN)).length : ℚ) := by
    exact_mod_cast hlen
  have hmean0 : 0 ≤ masked_mean row := by
    rw [masked_mean_eq]
    apply div_nonneg _ (le_of_lt hlenq)
    exact_mod_cast hsum.1
  have hmean1 : masked_mean row ≤ 1 := by
    rw [masked_mean_eq, div_le_one hlenq]
    exact_mod_cast hsum.2
  have hmode : mode row = ⌊masked_mean row⌋ := by
    rw [mode, pyInt, if_pos hmean0]
  refine ⟨hmode, ?_⟩
  have h0 : 0 ≤ ⌊masked_mean row⌋ := Int.floor_nonneg.mpr hmean0
  have h1 : ⌊masked_mean row⌋ ≤ 1 := by
    calc ⌊masked_mean row⌋ ≤ ⌊(1 : ℚ)⌋ := Int.floor_le_floor hmean1
    _ = 1 := by norm_num
  rw [hmode]
  omega

/-- Witness for the amended C3 theorem at the concrete row `[1, 1, 0]`. -/
theorem mode_floor_mean_witness :
    (∀ x ∈ ([1, 1, 0] : List ℤ), x = CPG_NAN ∨ x = 0 ∨ x = 1) ∧
    (∃ x ∈ ([1, 1, 0] : List ℤ), x ≠ CPG_NAN) ∧
    (mode [1, 1, 0] = ⌊masked_mean [1, 1, 0]⌋ ∧
      (mode [1, 1, 0] = 0 ∨ mode [1, 1, 0] = 1)) :=
  ⟨by decide, by decide, mode_floor_mean [1, 1, 0] (by decide) (by decide)⟩

/-- C2 counterexample: for sample count 2 and fraction 3/4, the code's converted
threshold is `max(int(2 * 3/4), 1) = 1` (truncation), while the claim's
`max(round(3/4 * 2), 1) = 2`; the row `[0, -1]` with one non-sentinel entry is
kept by the code although the claimed rounded threshold would drop it. -/
theorem coverage_filter_round_counterexample :
    coverage_mask [[0, -1]] (3/4) = .ok [true] ∧
    max (round ((3/4 : ℚ) * 2)) 1 = 2 ∧
    ¬ ((max (round ((3/4 : ℚ) * 2)) 1 : ℤ) ≤ (row_coverage [0, -1] : ℤ)) := by
  refine ⟨?_, ?_, ?_⟩
  · norm_num [coverage_mask, min_cov_threshold, nb_cell, row_coverage, CPG_NAN,
      List.filter, pyInt]
  · norm_num [round_eq]
  · norm_num [round_eq, row_coverage, CPG_NAN, List.filter]

/-- C2 (amended): for a fractional threshold `f < 1`, the coverage filter first
asserts the matrix has at least one observation overall — on a fully-unobserved
matrix it raises `AssertionError` (dcpg_data.py line 363) instead of computing
a mask — and otherwise converts `f` to `max(int(f * S), 1)` where `S` is the
sample count and `int` truncates toward zero (not `round`); position `i` is
then kept iff the count of non-sentinel entries in row `i` is at least that
converted threshold. -/
theorem coverage_mask_keep_iff (mat : List (List ℤ)) (f : ℚ) (hf : f < 1)
    (i : ℕ) (hi : i < mat.length) :
    ((mat.map row_coverage).sum = 0 → coverage_mask mat f = .error .assertionError) ∧
    (1 ≤ (mat.map row_coverage).sum →
      ∃ mask, coverage_mask mat f = .ok mask ∧
        (mask.getD i false = true ↔
          max (pyInt (f * (nb_cell mat : ℚ))) 1 ≤ (row_coverage (mat.getD i []) : ℤ))) := by
  constructor
  · intro h0
    rw [coverage_mask, if_neg (by omega)]
  · intro hobs
    refine ⟨_, by rw [coverage_mask, if_pos hobs], ?_⟩
    have hmap : (mat.map fun row =>
        decide (min_cov_threshold f (nb_cell mat) ≤ (row_coverage row : ℚ))).getD i false =
        decide (min_cov_threshold f (nb_cell mat) ≤ ((row_coverage (mat.getD i [])) : ℚ)) := by
      simp [List.getD_eq_getElem?_getD, List.getElem?_map, List.getElem?_eq_getElem hi]
    rw [hmap, decide_eq_true_iff, min_cov_threshold, if_pos hf, mul_comm]
    constructor
    · intro h; exact_mod_cast h
    · intro h; exact_mod_cast h

/-- Witness for the amended C2 theorem at `f = 1/2` over the matrix
`[[0, -1]]`, which has one observation and so passes the assert. -/
theorem coverage_mask_keep_iff_witness :
    ((1 : ℚ)/2 < 1) ∧ (0 < ([[(0 : ℤ), -1]] : List (List ℤ)).length) ∧
    ((([[(0 : ℤ), -1]] : List (List ℤ)).map row_coverage).sum = 0 →
      coverage_mask [[0, -1]] (1/2) = .error .assertionError) ∧
    (1 ≤ (([[(0 : ℤ), -1]] : List (List ℤ)).map row_coverage).sum →
      ∃ mask, coverage_mask [[0, -1]] (1/2) = .ok mask ∧
        (mask.getD 0 false = true ↔
          max (pyInt ((1/2) * (nb_cell [[0, -1]] : ℚ))) 1 ≤
            (row_coverage ([[(0 : ℤ), -1]].getD 0 []) : ℤ))) :=
  ⟨by norm_num, by norm_num,
    (coverage_mask_keep_iff [[0, -1]] (1/2) (by norm_num) 0 (by norm_num)).1,
    (coverage_mask_keep_iff [[0, -1]] (1/2) (by norm_num) 0 (by norm_num)).2⟩

/-- C8: the grid builder `prepro_pos_table` is idempotent on any position
table, its output has unique, strictly ascending positions within each
chromosome, and the empty table yields the empty grid with no error. -/
theorem prepro_pos_table_idempotent :
    (∀ t, prepro_pos_table (prepro_pos_table t) = prepro_pos_table t) ∧
    (∀ t c, (((prepro_pos_table t).filter fun r => decide (r.1 = c)).map
      Prod.snd).Pairwise (· < ·)) ∧
    prepro_pos_table ([] : List (String × ℤ)) = [] := by
  refine ⟨fun t => ?_, fun t c => ?_, rfl⟩
  · apply strict_sorted_eq_of_mem _ _ (prepro_pairwise _) (prepro_pairwise _)
    intro r
    rw [mem_prepro, mem_prepro]
  · have hf : ((prepro_pos_table t).filter fun r => decide (r.1 = c)).Pairwise lex_lt :=
      List.Pairwise.sublist (List.filter_sublist _) (prepro_pairwise t)
    rw [List.pairwise_map]
    refine hf.imp_of_mem ?_
    intro a b ha hb hab
    have hac : a.1 = c := by simpa using (List.mem_filter.mp ha).2
    have hbc : b.1 = c := by simpa using (List.mem_filter.mp hb).2
    rcases hab with h | ⟨_, h⟩
    · rw [hac, hbc] at h; exact absurd h (lt_irrefl c)
    · exact h

/-- C9: whatever permutations the shuffles apply and however many times the
visitation loop restarts, `reader` leaves the caller's `data_files` list object
unchanged: the copy at hdf.py line 72 (and the rebinding to the fresh
`_data_files`) make every in-place `np.random.shuffle` hit a private list
only. -/
theorem reader_preserves_data_files (h : PyListHeap) (arg : ℕ) (nb_set : Bool)
    (sizes : String → ℕ) (cap : ℕ) (shuffles : List (List String → List String))
    (harg : arg < h.cells.length) :
    heap_get (reader_files_effect h arg nb_set sizes cap shuffles) arg = heap_get h arg := by
  rw [reader_files_effect]
  cases nb_set with
  | false =>
    simp only [Bool.false_eq_true, if_false, heap_alloc]
    rw [fold_shuffles_get _ _ _ _ (by omega)]
    exact heap_get_append h _ arg harg
  | true =>
    simp only [if_true, heap_alloc]
    rw [fold_shuffles_get _ _ _ _ (by simp; omega)]
    rw [heap_get_append ⟨h.cells ++ [heap_get h arg]⟩ _ arg (by simp; omega)]
    exact heap_get_append h _ arg harg

/-- Witness for C9: a one-object heap, a reversing shuffle, and a set cap. -/
theorem reader_preserves_data_files_witness :
    (0 < (PyListHeap.mk [["a", "b"]]).cells.length) ∧
    heap_get (reader_files_effect ⟨[["a", "b"]]⟩ 0 true (fun _ => 1) 1 [List.reverse]) 0 =
      heap_get ⟨[["a", "b"]]⟩ 0 :=
  ⟨by decide, reader_preserves_data_files ⟨[["a", "b"]]⟩ 0 true (fun _ => 1) 1 [List.reverse]
    (by decide)⟩

/-- C10: `write_data` closes the destination iff it was invoked with a filename
string; in either case it writes the spec's recursive mirror of the nested
mapping's entries into the destination group, and a group-handle destination is
left open for the caller. -/
theorem write_data_close_iff (data : List (String × PyVal)) (dest : H5Dest) :
    ((write_data data dest).2 = true ↔ ∃ s, dest = H5Dest.filename s) ∧
    (write_data data dest).1 = mirror_entries data := by
  constructor
  · cases dest <;> simp [write_data, H5Dest.is_root]
  · exact write_entries_eq_mirror data

theorem length_pySlice {α : Type} (l : List α) (a b : ℕ) :
    (pySlice l a b).length = min (b - a) (l.length - a) := by
  simp [pySlice]

theorem getD_append_left {α : Type} (l₁ l₂ : List α) (j : ℕ) (d : α)
    (h : j < l₁.length) : (l₁ ++ l₂).getD j d = l₁.getD j d := by
  simp [List.getD_eq_getElem?_getD, List.getElem?_append, h]

theorem getD_append_right {α : Type} (l₁ l₂ : List α) (j : ℕ) (d : α)
    (h : l₁.length ≤ j) : (l₁ ++ l₂).getD j d = l₂.getD (j - l₁.length) d := by
  simp [List.getD_eq_getElem?_getD, List.getElem?_append, Nat.not_lt.mpr h]

theorem pySlice_getD {α : Type} (l : List α) (a b i : ℕ) (d : α)
    (h1 : i < b - a) :
    (pySlice l a b).getD i d = l.getD (a + i) d := by
  rw [pySlice]
  simp [List.getD_eq_getElem?_getD, List.getElem?_take, List.getElem?_drop, h1]

theorem seq_window_length (seq : List DnaBase) (p wlen : ℕ)
    (hw : wlen % 2 = 1) (hp : p < seq.length) :
    (seq_window seq p wlen).length = wlen := by
  simp only [seq_window]
  split_ifs with h
  · rw [length_pySlice] at h
    simp only [List.length_append, List.length_replicate, length_pySlice]
    omega
  · rw [length_pySlice] at h
    rw [length_pySlice]
    omega

theorem seq_window_getD (seq : List DnaBase) (p wlen j : ℕ)
    (hw : wlen % 2 = 1) (hp : p < seq.length) (hj : j < wlen)
    (hjl : wlen / 2 ≤ p + j) (hjr : p + j - wlen / 2 < seq.length) :
    (seq_window seq p wlen).getD j DnaBase.N = seq.getD (p + j - wlen / 2) DnaBase.N := by
  simp only [seq_window]
  split_ifs with h
  · -- padded branch
    rw [length_pySlice] at h
    rw [getD_append_left _ _ _ _
      (by simp only [List.length_append, List.length_replicate, length_pySlice]; omega)]
    rw [getD_append_right _ _ _ _ (by simp only [List.length_replicate]; omega)]
    simp only [List.length_replicate]
    rw [pySlice_getD _ _ _ _ _ (by omega)]
    congr 1
    omega
  · -- unpadded branch: the slice is exactly the window
    rw [length_pySlice] at h
    rw [pySlice_getD _ _ _ _ _ (by omega)]
    congr 1
    omega

theorem cg_slice_facts (seq : List DnaBase) (p : ℕ)
    (h : pySlice seq p (p + 2) = [DnaBase.C, DnaBase.G]) :
    p + 1 < seq.length ∧ seq.getD p DnaBase.N = DnaBase.C ∧
      seq.getD (p + 1) DnaBase.N = DnaBase.G := by
  have hlen : (pySlice seq p (p + 2)).length = 2 := by rw [h]; rfl
  rw [length_pySlice] at hlen
  have hp1 : p + 1 < seq.length := by omega
  refine ⟨hp1, ?_, ?_⟩
  · have := pySlice_getD seq p (p + 2) 0 DnaBase.N (by omega)
    rw [h] at this
    simpa using this.symm
  · have := pySlice_getD seq p (p + 2) 1 DnaBase.N (by omega)
    rw [h] at this
    simpa using this.symm

-- mapExcept lemmas
theorem mapExcept_ok_length {α β : Type} (f : α → Except PyExc β) :
    ∀ (l : List α) (bs : List β), mapExcept f l = .ok bs → bs.length = l.length := by
  intro l
  induction l with
  | nil => intro bs h; rw [mapExcept] at h; cases h; rfl
  | cons a rest ih =>
    intro bs h
    rw [mapExcept] at h
    cases hfa : f a with
    | error e => rw [hfa] at h; cases h
    | ok b =>
      rw [hfa] at h
      cases hrest : mapExcept f rest with
      | error e => rw [hrest] at h; cases h
      | ok bs' =>
        rw [hrest] at h
        cases h
        simp [ih bs' hrest]

theorem mapExcept_ok_mem {α β : Type} (f : α → Except PyExc β) :
    ∀ (l : List α) (bs : List β), mapExcept f l = .ok bs →
      ∀ b ∈ bs, ∃ a ∈ l, f a = .ok b := by
  intro l
  induction l with
  | nil => intro bs h; rw [mapExcept] at h; cases h; intro b hb; cases hb
  | cons a rest ih =>
    intro bs h
    rw [mapExcept] at h
    cases hfa : f a with
    | error e => rw [hfa] at h; cases h
    | ok b0 =>
      rw [hfa] at h
      cases hrest : mapExcept f rest with
      | error e => rw [hrest] at h; cases h
      | ok bs' =>
        rw [hrest] at h
        cases h
        intro b hb
        rcases List.mem_cons.mp hb with rfl | hb'
        · exact ⟨a, by simp, hfa⟩
        · obtain ⟨a', ha', hfa'⟩ := ih bs' hrest b hb'
          exact ⟨a', by simp [ha'], hfa'⟩

theorem mapExcept_all_ok {α β : Type} (f : α → Except PyExc β) :
    ∀ (l : List α), (∀ a ∈ l, ∃ b, f a = .ok b) →
      ∃ bs, mapExcept f l = .ok bs := by
  intro l
  induction l with
  | nil => intro _; exact ⟨[], rfl⟩
  | cons a rest ih =>
    intro h
    obtain ⟨b, hb⟩ := h a (by simp)
    obtain ⟨bs, hbs⟩ := ih fun a' ha' => h a' (by simp [ha'])
    refine ⟨b :: bs, ?_⟩
    rw [mapExcept, hb, hbs]

theorem mapExcept_error_of_exists {α β : Type} (f : α → Except PyExc β) :
    ∀ (l : List α), (∃ a ∈ l, ∀ b, f a ≠ .ok b) →
      ∃ a ∈ l, ∃ e, f a = .error e ∧ mapExcept f l = .error e := by
  intro l
  induction l with
  | nil => rintro ⟨a, ha, _⟩; cases ha
  | cons a rest ih =>
    rintro ⟨a0, ha0, hne⟩
    cases hfa : f a with
    | error e =>
      refine ⟨a, by simp, e, hfa, ?_⟩
      rw [mapExcept, hfa]
    | ok b =>
      have ha0' : a0 ∈ rest := by
        rcases List.mem_cons.mp ha0 with rfl | h'
        · exact absurd hfa (hne b)
        · exact h'
      obtain ⟨a', ha', e, hfa', hme⟩ := ih ⟨a0, ha0', hne⟩
      refine ⟨a', by simp [ha'], e, hfa', ?_⟩
      rw [mapExcept, hfa, hme]

-- replaceN lemmas
theorem replaceN_row_length (rnd : ℕ → ℕ) :
    ∀ (l : List ℕ) (k : ℕ), (replaceN_row rnd l k).1.length = l.length := by
  intro l
  induction l with
  | nil => intro k; rfl
  | cons v rest ih =>
    intro k
    rw [replaceN_row]
    split_ifs <;> simp [ih]

theorem replaceN_mat_length (rnd : ℕ → ℕ) :
    ∀ (rows : List (List ℕ)) (k : ℕ), (replaceN_mat rnd rows k).length = rows.length := by
  intro rows
  induction rows with
  | nil => intro k; rfl
  | cons r rest ih => intro k; rw [replaceN_mat]; simp [ih]

theorem replaceN_mat_mem (rnd : ℕ → ℕ) :
    ∀ (rows : List (List ℕ)) (k : ℕ), ∀ r ∈ replaceN_mat rnd rows k,
      ∃ r0 ∈ rows, ∃ k', r = (replaceN_row rnd r0 k').1 := by
  intro rows
  induction rows with
  | nil => intro k r hr; cases hr
  | cons r0 rest ih =>
    intro k r hr
    rw [replaceN_mat] at hr
    rcases List.mem_cons.mp hr with rfl | hr'
    · exact ⟨r0, by simp, k, rfl⟩
    · obtain ⟨r1, hr1, k', hk'⟩ := ih _ r hr'
      exact ⟨r1, by simp [hr1], k', hk'⟩

theorem replaceN_row_lt4 (rnd : ℕ → ℕ) :
    ∀ (l : List ℕ) (k : ℕ), (∀ v ∈ l, v ≤ 4) →
      ∀ v ∈ (replaceN_row rnd l k).1, v < 4 := by
  intro l
  induction l with
  | nil => intro k _ v hv; cases hv
  | cons v0 rest ih =>
    intro k h v hv
    rw [replaceN_row] at hv
    split_ifs at hv with h4
    · rcases List.mem_cons.mp hv with rfl | hv'
      · exact Nat.mod_lt _ (by norm_num)
      · exact ih _ (fun x hx => h x (by simp [hx])) v hv'
    · rcases List.mem_cons.mp hv with rfl | hv'
      · have := h v (by simp)
        omega
      · exact ih _ (fun x hx => h x (by simp [hx])) v hv'

theorem replaceN_row_getD (rnd : ℕ → ℕ) :
    ∀ (l : List ℕ) (k i : ℕ), l.getD i 0 ≠ 4 →
      (replaceN_row rnd l k).1.getD i 0 = l.getD i 0 := by
  intro l
  induction l with
  | nil => intro k i _; rfl
  | cons v0 rest ih =>
    intro k i h
    rw [replaceN_row]
    split_ifs with h4
    · cases i with
      | zero => rw [List.getD_cons_zero] at h; exact absurd h4 h
      | succ i' =>
        rw [List.getD_cons_succ] at h ⊢
        exact ih _ i' h
    · cases i with
      | zero => simp
      | succ i' =>
        rw [List.getD_cons_succ] at h ⊢
        exact ih _ i' h

-- char2int lemmas
theorem char2int_le4 (w : List DnaBase) : ∀ v ∈ char2int w, v ≤ 4 := by
  intro v hv
  obtain ⟨b, _, rfl⟩ := List.mem_map.mp hv
  cases b <;> simp [CHAR_TO_INT]

theorem char2int_length (w : List DnaBase) : (char2int w).length = w.length := by
  simp [char2int]

theorem char2int_getD (w : List DnaBase) (i : ℕ) (hi : i < w.length) :
    (char2int w).getD i 0 = CHAR_TO_INT (w.getD i DnaBase.N) := by
  rw [char2int]
  simp [List.getD_eq_getElem?_getD, List.getElem?_eq_getElem hi]

-- extract_one lemmas
theorem extract_one_ok_shape (seq : List DnaBase) (p wlen : ℕ) (c : Bool)
    (w : List DnaBase) (h : extract_one seq p wlen c = .ok w) :
    w = seq_window seq p wlen ∧ w.length = wlen := by
  rw [extract_one] at h
  split_ifs at h with h1 h2
  all_goals simp at h
  subst h
  exact ⟨rfl, h2⟩

theorem extract_one_ok_of_cg (seq : List DnaBase) (p wlen : ℕ)
    (hw : wlen % 2 = 1) (hp : p < seq.length)
    (hcg : pySlice seq p (p + 2) = [DnaBase.C, DnaBase.G]) :
    extract_one seq p wlen true = .ok (seq_window seq p wlen) := by
  rw [extract_one, if_neg (by simp [hcg]), if_pos (seq_window_length seq p wlen hw hp)]

theorem extract_one_error_of_not_cg (seq : List DnaBase) (p wlen : ℕ)
    (hcg : pySlice seq p (p + 2) ≠ [DnaBase.C, DnaBase.G]) :
    extract_one seq p wlen true =
      .error (.valueError ("No CpG at position " ++ toString p ++ "!")) := by
  rw [extract_one, if_pos ⟨rfl, hcg⟩]

/-- C6: every window matrix returned by `extract_seq_windows` has one row per
requested position, each row of length exactly `wlen` (a window that runs past
a sequence boundary is padded, not shrunk — see the witness, whose single
window overruns both ends of a length-2 sequence), no entry equal to the
unknown-symbol code, and, when CpG checking is enabled, the two center columns
hold the codes of `C` and `G` in every row.  The quantification over `rnd`
covers every random draw for ambiguous bases. -/
theorem extract_seq_windows_shape (seq : List DnaBase) (pos : List ℕ) (wlen seq_index : ℕ)
    (cpg_sites : Bool) (rnd : ℕ → ℕ) (mat : List (List ℕ))
    (hok : extract_seq_windows seq pos wlen seq_index cpg_sites rnd = .ok mat) :
    mat.length = pos.length ∧
    (∀ r ∈ mat, r.length = wlen) ∧
    (∀ r ∈ mat, ∀ v ∈ r, v < 4) ∧
    (cpg_sites = true → ∀ r ∈ mat,
      r.getD (wlen / 2) 0 = 3 ∧ r.getD (wlen / 2 + 1) 0 = 2) := by
  simp only [extract_seq_windows] at hok
  split at hok
  · simp at hok
  · rename_i wins heq
    split_ifs at hok with hAll hCtr
    all_goals simp at hok
    subst hok
    refine ⟨?_, ?_, ?_, ?_⟩
    · rw [replaceN_mat_length, List.length_map, mapExcept_ok_length _ pos wins heq]
    · intro r hr
      obtain ⟨r0, hr0, k', rfl⟩ := replaceN_mat_mem rnd _ _ r hr
      obtain ⟨w0, hw0, rfl⟩ := List.mem_map.mp hr0
      obtain ⟨q, _, hq⟩ := mapExcept_ok_mem _ pos wins heq w0 hw0
      rw [replaceN_row_length, char2int_length,
        (extract_one_ok_shape _ _ _ _ _ hq).2]
    · intro r hr v hv
      have h1 := (List.all_eq_true.mp hAll) r hr
      have h2 := (List.all_eq_true.mp h1) v hv
      exact of_decide_eq_true h2
    · intro hc r hr
      have hX : (replaceN_mat rnd (wins.map char2int) 0).all
          (fun r => decide (r.getD (wlen / 2) 0 = 3 ∧ r.getD (wlen / 2 + 1) 0 = 2)) = true := by
        by_contra hX
        exact hCtr ⟨hc, hX⟩
      exact of_decide_eq_true ((List.all_eq_true.mp hX) r hr)

/-- Witness for C6 at `seq = CG`, `pos = [1]`, `wlen = 5`: the returned window
`[0, 0, 3, 2, 0]` is padded on both sides and keeps length 5. -/
theorem extract_seq_windows_shape_witness :
    ([[0, 0, 3, 2, 0]] : List (List ℕ)).length = ([1] : List ℕ).length ∧
    (∀ r ∈ ([[0, 0, 3, 2, 0]] : List (List ℕ)), r.length = 5) ∧
    (∀ r ∈ ([[0, 0, 3, 2, 0]] : List (List ℕ)), ∀ v ∈ r, v < 4) ∧
    (true = true → ∀ r ∈ ([[0, 0, 3, 2, 0]] : List (List ℕ)),
      r.getD (5 / 2) 0 = 3 ∧ r.getD (5 / 2 + 1) 0 = 2) :=
  extract_seq_windows_shape [DnaBase.C, DnaBase.G] [1] 5 1 true (fun _ => 0)
    [[0, 0, 3, 2, 0]] (by rfl)

theorem seq_window_center (seq : List DnaBase) (p wlen : ℕ)
    (hw : wlen % 2 = 1) (h3 : 3 ≤ wlen)
    (hcg : pySlice seq p (p + 2) = [DnaBase.C, DnaBase.G]) :
    (seq_window seq p wlen).getD (wlen / 2) DnaBase.N = DnaBase.C ∧
    (seq_window seq p wlen).getD (wlen / 2 + 1) DnaBase.N = DnaBase.G := by
  obtain ⟨hp1, hC, hG⟩ := cg_slice_facts seq p hcg
  have hp : p < seq.length := by omega
  constructor
  · rw [seq_window_getD seq p wlen (wlen / 2) hw hp (by omega) (by omega) (by omega)]
    have : p + wlen / 2 - wlen / 2 = p := by omega
    rw [this, hC]
  · rw [seq_window_getD seq p wlen (wlen / 2 + 1) hw hp (by omega) (by omega) (by omega)]
    have : p + (wlen / 2 + 1) - wlen / 2 = p + 1 := by omega
    rw [this, hG]

theorem extract_seq_windows_ok (seq : List DnaBase) (pos : List ℕ) (wlen seq_index : ℕ)
    (rnd : ℕ → ℕ) (hw : wlen % 2 = 1) (h3 : 3 ≤ wlen)
    (hrange : ∀ q ∈ pos, seq_index ≤ q ∧ q - seq_index < seq.length)
    (hcg : ∀ q ∈ pos, pySlice seq (q - seq_index) (q - seq_index + 2) =
      [DnaBase.C, DnaBase.G]) :
    ∃ mat, extract_seq_windows seq pos wlen seq_index true rnd = .ok mat := by
  obtain ⟨wins, hwins⟩ :=
    mapExcept_all_ok (fun q => extract_one seq (q - seq_index) wlen true) pos
      (fun q hq => ⟨seq_window seq (q - seq_index) wlen,
        extract_one_ok_of_cg _ _ _ hw (hrange q hq).2 (hcg q hq)⟩)
  refine ⟨replaceN_mat rnd (wins.map char2int) 0, ?_⟩
  have hAllTrue : ((replaceN_mat rnd (wins.map char2int) 0).all
      fun r => r.all fun v => decide (v < 4)) = true := by
    refine List.all_eq_true.mpr fun r hr => List.all_eq_true.mpr fun v hv => ?_
    obtain ⟨r0, hr0, k', rfl⟩ := replaceN_mat_mem rnd _ _ r hr
    obtain ⟨w0, _, rfl⟩ := List.mem_map.mp hr0
    exact decide_eq_true (replaceN_row_lt4 rnd _ k' (char2int_le4 w0) v hv)
  have hCtrTrue : ((replaceN_mat rnd (wins.map char2int) 0).all
      fun r => decide (r.getD (wlen / 2) 0 = 3 ∧ r.getD (wlen / 2 + 1) 0 = 2)) = true := by
    refine List.all_eq_true.mpr fun r hr => ?_
    obtain ⟨r0, hr0, k', rfl⟩ := replaceN_mat_mem rnd _ _ r hr
    obtain ⟨w0, hw0, rfl⟩ := List.mem_map.mp hr0
    obtain ⟨q, hq, hq_ok⟩ := mapExcept_ok_mem _ pos wins hwins w0 hw0
    obtain ⟨rfl, hwlen0⟩ := extract_one_ok_shape _ _ _ _ _ hq_ok
    obtain ⟨hcC, hcG⟩ :=
      seq_window_center seq (q - seq_index) wlen hw h3 (hcg q hq)
    have hlen0 : (seq_window seq (q - seq_index) wlen).length = wlen :=
      seq_window_length _ _ _ hw (hrange q hq).2
    have e1 : (char2int (seq_window seq (q - seq_index) wlen)).getD (wlen / 2) 0 = 3 := by
      rw [char2int_getD _ _ (by omega), hcC]
      rfl
    have e2 : (char2int (seq_window seq (q - seq_index) wlen)).getD (wlen / 2 + 1) 0 = 2 := by
      rw [char2int_getD _ _ (by omega), hcG]
      rfl
    apply decide_eq_true
    constructor
    · rw [replaceN_row_getD _ _ _ _ (by rw [e1]; omega), e1]
    · rw [replaceN_row_getD _ _ _ _ (by rw [e2]; omega), e2]
  simp only [extract_seq_windows, hwins]
  rw [if_neg (not_not_intro hAllTrue), if_neg fun hpair => hpair.2 hCtrTrue]

/-- C7: with CpG checking enabled (for an odd window length ≥ 3 and positions
whose two symbols lie inside the sequence), `extract_seq_windows` raises a
validation error identifying the offending 0-based position iff some requested
position's two symbols are not `C` followed by `G`; on a sequence with `CG` at
every requested position it succeeds. -/
theorem extract_seq_windows_cpg_iff (seq : List DnaBase) (pos : List ℕ)
    (wlen seq_index : ℕ) (rnd : ℕ → ℕ)
    (hw : wlen % 2 = 1) (h3 : 3 ≤ wlen)
    (hrange : ∀ q ∈ pos, seq_index ≤ q ∧ q - seq_index < seq.length) :
    ((∀ q ∈ pos, pySlice seq (q - seq_index) (q - seq_index + 2) =
        [DnaBase.C, DnaBase.G]) →
      ∃ mat, extract_seq_windows seq pos wlen seq_index true rnd = .ok mat) ∧
    ((∃ q ∈ pos, pySlice seq (q - seq_index) (q - seq_index + 2) ≠
        [DnaBase.C, DnaBase.G]) ↔
      ∃ p, extract_seq_windows seq pos wlen seq_index true rnd =
          .error (.valueError ("No CpG at position " ++ toString p ++ "!")) ∧
        ∃ q ∈ pos, p = q - seq_index ∧
          pySlice seq p (p + 2) ≠ [DnaBase.C, DnaBase.G]) := by
  refine ⟨fun hcg => extract_seq_windows_ok seq pos wlen seq_index rnd hw h3 hrange hcg,
    ?_, ?_⟩
  · rintro ⟨q0, hq0, hne0⟩
    obtain ⟨a, ha, e, hfa, hme⟩ :=
      mapExcept_error_of_exists (fun q => extract_one seq (q - seq_index) wlen true) pos
        ⟨q0, hq0, fun b hb => by
          have hb' : extract_one seq (q0 - seq_index) wlen true = .ok b := hb
          rw [extract_one_error_of_not_cg _ _ _ hne0] at hb'
          cases hb'⟩
    have hnA : pySlice seq (a - seq_index) (a - seq_index + 2) ≠ [DnaBase.C, DnaBase.G] := by
      intro hA
      rw [extract_one_ok_of_cg _ _ _ hw (hrange a ha).2 hA] at hfa
      cases hfa
    have he : e = .valueError ("No CpG at position " ++ toString (a - seq_index) ++ "!") := by
      rw [extract_one_error_of_not_cg _ _ _ hnA] at hfa
      exact (Except.error.injEq _ _).mp hfa.symm
    refine ⟨a - seq_index, ?_, a, ha, rfl, hnA⟩
    simp only [extract_seq_windows, hme, he]
  · rintro ⟨p, _, q, hq, rfl, hne⟩
    exact ⟨q, hq, hne⟩

/-- Witness for C7 at `seq = CG`, `pos = [1]`, `wlen = 3`. -/
theorem extract_seq_windows_cpg_iff_witness :
    ((3 : ℕ) % 2 = 1) ∧ (3 ≤ 3) ∧
    (∀ q ∈ ([1] : List ℕ), 1 ≤ q ∧ q - 1 < ([DnaBase.C, DnaBase.G] : List DnaBase).length) ∧
    (((∀ q ∈ ([1] : List ℕ), pySlice [DnaBase.C, DnaBase.G] (q - 1) (q - 1 + 2) =
        [DnaBase.C, DnaBase.G]) →
      ∃ mat, extract_seq_windows [DnaBase.C, DnaBase.G] [1] 3 1 true (fun _ => 0) = .ok mat) ∧
    ((∃ q ∈ ([1] : List ℕ), pySlice [DnaBase.C, DnaBase.G] (q - 1) (q - 1 + 2) ≠
        [DnaBase.C, DnaBase.G]) ↔
      ∃ p, extract_seq_windows [DnaBase.C, DnaBase.G] [1] 3 1 true (fun _ => 0) =
          .error (.valueError ("No CpG at position " ++ toString p ++ "!")) ∧
        ∃ q ∈ ([1] : List ℕ), p = q - 1 ∧
          pySlice [DnaBase.C, DnaBase.G] p (p + 2) ≠ [DnaBase.C, DnaBase.G])) :=
  ⟨rfl, by norm_num, by decide,
    extract_seq_windows_cpg_iff [DnaBase.C, DnaBase.G] [1] 3 1 (fun _ => 0)
      rfl (by norm_num) (by decide)⟩

-- C1 lemma chain
theorem total_len_nil {α : Type} : total_len ([] : List (List α)) = 0 := rfl

theorem total_len_cons {α : Type} (f : List α) (rest : List (List α)) :
    total_len (f :: rest) = f.length + total_len rest := by
  simp [total_len]

theorem total_len_append {α : Type} (a b : List (List α)) :
    total_len (a ++ b) = total_len a + total_len b := by
  simp [total_len]

theorem total_len_perm {α : Type} (a b : List (List α)) (h : a.Perm b) :
    total_len a = total_len b :=
  (h.map List.length).sum_eq

theorem nb_batch_mul_ge (n bs : ℕ) (hbs : 0 < bs) : n ≤ nb_batch n bs * bs := by
  rcases Nat.eq_zero_or_pos n with rfl | hn
  · simp
  · rw [nb_batch]
    have hrw : n + bs - 1 = (n - 1) + bs := by omega
    rw [hrw, Nat.add_div_right _ hbs, Nat.succ_mul]
    obtain ⟨r, hr, hsum⟩ : ∃ r, r < bs ∧ (n - 1) / bs * bs + r = n - 1 :=
      ⟨(n - 1) % bs, Nat.mod_lt _ hbs, by rw [Nat.mul_comm]; exact Nat.div_add_mod _ _⟩
    generalize (n - 1) / bs * bs = P at hsum ⊢
    omega

theorem file_batches_go_spec {α : Type} (file : List α) (bs cap : ℕ) (hbs : 0 < bs) :
    ∀ (fuel batch seen : ℕ), seen ≤ cap →
      file.length ≤ batch * bs + fuel * bs →
      total_len (file_batches_go file bs cap fuel batch seen).1 =
          min (cap - seen) (file.length - batch * bs) ∧
      (file_batches_go file bs cap fuel batch seen).2 =
          seen + min (cap - seen) (file.length - batch * bs) := by
  intro fuel
  induction fuel with
  | zero =>
    intro batch seen hseen hfuel
    rw [Nat.zero_mul] at hfuel
    generalize batch * bs = s at hfuel ⊢
    constructor <;> simp [file_batches_go, total_len] <;> omega
  | succ fuel ih =>
    intro batch seen hseen hfuel
    have ihnext := ih (batch + 1)
    have hmul : (batch + 1) * bs = batch * bs + bs := by ring
    have hmul2 : (fuel + 1) * bs = fuel * bs + bs := by ring
    rw [hmul] at ihnext
    rw [hmul2] at hfuel
    simp only [file_batches_go]
    generalize hs : batch * bs = s at hfuel ihnext ⊢
    generalize hF : fuel * bs = F at hfuel ihnext
    split_ifs with h0 h1
    · constructor <;> simp [total_len] <;> omega
    · constructor
      · simp only [total_len, List.map_cons, List.map_nil, List.sum_cons, List.sum_nil,
          List.length_take, List.length_drop]
        omega
      · simp only []
        omega
    · obtain ⟨hr1, hr2⟩ := ihnext (seen + (min file.length (s + min (cap - seen) bs) - s))
        (by omega) (by omega)
      constructor
      · simp only [total_len, List.map_cons, List.sum_cons, List.length_take,
          List.length_drop]
        rw [show ((file_batches_go file bs cap fuel (batch + 1)
          (seen + (min file.length (s + min (cap - seen) bs) - s))).1.map
            List.length).sum = total_len (file_batches_go file bs cap fuel (batch + 1)
          (seen + (min file.length (s + min (cap - seen) bs) - s))).1 from rfl, hr1]
        omega
      · simp only []
        rw [hr2]
        omega

theorem file_batches_spec {α : Type} (file : List α) (bs cap seen : ℕ)
    (hbs : 0 < bs) (hseen : seen ≤ cap) :
    total_len (file_batches file bs cap seen).1 = min (cap - seen) file.length ∧
    (file_batches file bs cap seen).2 = seen + min (cap - seen) file.length := by
  have h := file_batches_go_spec file bs cap hbs (nb_batch file.length bs) 0 seen hseen
    (by simpa using nb_batch_mul_ge file.length bs hbs)
  simpa [file_batches] using h

theorem select_files_min {α : Type} :
    ∀ (files : List (List α)) (cap : ℕ),
      min cap (total_len (select_files files cap)) = min cap (total_len files) := by
  intro files
  induction files with
  | nil => intro cap; rfl
  | cons f rest ih =>
    intro cap
    rw [select_files]
    split_ifs with h
    · rw [total_len_cons, total_len_cons, total_len_nil]
      omega
    · rw [total_len_cons, total_len_cons]
      have := ih (cap - f.length)
      omega

theorem reader_pass_spec {α : Type} (bs cap : ℕ) (hbs : 0 < bs)
    (permRows : ℕ → List α → List α) (hr : ∀ i f, (permRows i f).length = f.length) :
    ∀ (files : List (List α)) (i seen : ℕ), seen ≤ cap →
      total_len (reader_pass bs cap permRows files i seen) =
        min (cap - seen) (total_len files) := by
  intro files
  induction files with
  | nil => intro i seen h; simp [reader_pass, total_len]
  | cons f rest ih =>
    intro i seen hseen
    rw [reader_pass]
    obtain ⟨h1, h2⟩ := file_batches_spec (permRows i f) bs cap seen hbs hseen
    rw [hr i f] at h1 h2
    split_ifs with hc
    · rw [h1, h2] at *
      rw [total_len_cons]
      omega
    · rw [h2] at hc
      have h3 := ih (i + 1) ((file_batches (permRows i f) bs cap seen).2) (by rw [h2]; omega)
      rw [total_len_append, h1, h3, h2, total_len_cons]
      omega

theorem reader_total {α : Type} (files : List (List α)) (bs cap : ℕ) (hbs : 0 < bs)
    (permFiles : List (List α) → List (List α)) (hpf : ∀ l, (permFiles l).Perm l)
    (permRows : ℕ → List α → List α) (hr : ∀ i f, (permRows i f).length = f.length) :
    total_len (reader files bs cap permFiles permRows) = min cap (total_len files) := by
  rw [reader, reader_pass_spec bs cap hbs permRows hr _ 0 0 (by omega),
    total_len_perm _ _ (hpf (select_files files cap)), Nat.sub_zero]
  exact select_files_min files cap

theorem read_from_go_len {α : Type} (cap : ℕ) :
    ∀ (batches : List (List α)) (seen : ℕ),
      min (cap - seen) (total_len batches) ≤ (read_from_go cap batches seen).length := by
  intro batches
  induction batches with
  | nil => intro seen; simp [read_from_go, total_len]
  | cons b rest ih =>
    intro seen
    rw [read_from_go]
    split_ifs with h
    · rw [total_len_cons]
      omega
    · rw [List.length_append, total_len_cons]
      have h2 := ih (seen + b.length)
      rw [Classical.not_and_iff_or_not_not] at h
      omega

theorem read_len {α : Type} (files : List (List α)) (bs cap : ℕ) (hbs : 0 < bs)
    (hcap : 0 < cap)
    (permFiles : List (List α) → List (List α)) (hpf : ∀ l, (permFiles l).Perm l)
    (permRows : ℕ → List α → List α) (hr : ∀ i f, (permRows i f).length = f.length)
    (hN : cap ≤ total_len files) :
    (read files bs cap permFiles permRows).length = cap := by
  rw [read]
  simp only [read_from]
  rw [if_pos (by omega : cap ≠ 0), List.length_take]
  have h1 := reader_total files bs cap hbs permFiles hpf permRows hr
  have h2 := read_from_go_len cap (reader files bs cap permFiles permRows) 0
  omega

/-- C1: over any list of containers, any batch size, any truthy sample cap, and
any shuffle draws (container-order permutation and per-container row shuffles),
the batch generator `reader` (with `loop=False`, as `read` runs it) never
yields more than the cap in total; and whenever the total available sample
count is at least the cap `C`, it yields exactly `C` samples — the final batch
truncated mid-batch — and `read` (`read_from` over the generator, i.e.
`read_all`) returns exactly `C` samples. -/
theorem reader_cap_exact {α : Type} (files : List (List α)) (bs cap : ℕ)
    (permFiles : List (List α) → List (List α)) (permRows : ℕ → List α → List α)
    (hbs : 0 < bs) (hcap : 0 < cap)
    (hpf : ∀ l, (permFiles l).Perm l) (hpr : ∀ i f, (permRows i f).length = f.length) :
    total_len (reader files bs cap permFiles permRows) ≤ cap ∧
    (cap ≤ total_len files →
      total_len (reader files bs cap permFiles permRows) = cap ∧
      (read files bs cap permFiles permRows).length = cap) := by
  have h1 := reader_total files bs cap hbs permFiles hpf permRows hpr
  exact ⟨by omega, fun hN => ⟨by omega,
    read_len files bs cap hbs hcap permFiles hpf permRows hpr hN⟩⟩

/-- Witness for C1: containers `[1,2,3]` and `[4,5]`, batch size 2, cap 4. -/
theorem reader_cap_exact_witness :
    (0 < 2) ∧ (0 < 4) ∧ (∀ l : List (List ℕ), (id l).Perm l) ∧
    (∀ (i : ℕ) (f : List ℕ), ((fun _ f => f : ℕ → List ℕ → List ℕ) i f).length = f.length) ∧
    (total_len (reader [[1, 2, 3], [4, 5]] 2 4 id (fun _ f => f)) ≤ 4 ∧
      (4 ≤ total_len [[1, 2, 3], [4, 5]] →
        total_len (reader [[1, 2, 3], [4, 5]] 2 4 id (fun _ f => f)) = 4 ∧
        (read [[1, 2, 3], [4, 5]] 2 4 id (fun _ f => f)).length = 4)) :=
  ⟨by norm_num, by norm_num, fun l => List.Perm.refl l, fun i f => rfl,
    reader_cap_exact [[1, 2, 3], [4, 5]] 2 4 id (fun _ f => f) (by norm_num) (by norm_num)
      (fun l => List.Perm.refl l) (fun i f => rfl)⟩

-- C5 helpers
theorem getD_of_lt {α : Type} (l : List α) (n : ℕ) (d : α) (h : n < l.length) :
    l.getD n d = l[n] := by
  simp [List.getD_eq_getElem?_getD, List.getElem?_eq_getElem h]

theorem getD_map_of_lt {α β : Type} (f : α → β) (l : List α) (k : ℕ) (d : β) (d' : α)
    (h : k < l.length) : (l.map f).getD k d = f (l.getD k d') := by
  rw [getD_of_lt _ _ _ (by simpa using h), getD_of_lt _ _ _ h, List.getElem_map]

theorem getD_mem_of_lt {α : Type} (l : List α) (n : ℕ) (d : α) (h : n < l.length) :
    l.getD n d ∈ l := by
  rw [getD_of_lt _ _ _ h]
  exact List.getElem_mem h

theorem getD_set_self {α : Type} (l : List α) (i : ℕ) (v d : α) (h : i < l.length) :
    (l.set i v).getD i d = v := by
  simp [List.getD_eq_getElem?_getD, List.getElem?_set_self h]

theorem getD_set_ne {α : Type} (l : List α) (i j : ℕ) (v d : α) (h : i ≠ j) :
    (l.set i v).getD j d = l.getD j d := by
  simp [List.getD_eq_getElem?_getD, List.getElem?_set_ne h]

theorem getD_replicate_self {α : Type} (n i : ℕ) (x : α) :
    (List.replicate n x).getD i x = x := by
  rw [List.getD_eq_getElem?_getD, List.getElem?_replicate]
  split_ifs <;> rfl

theorem np_is_sorted_of_pairwise (l : List ℤ) (h : l.Pairwise (· < ·)) :
    np_is_sorted l = true := by
  induction l with
  | nil => rfl
  | cons a t ih =>
    cases t with
    | nil => rfl
    | cons b t' =>
      rw [List.pairwise_cons] at h
      rw [np_is_sorted, Bool.and_eq_true]
      exact ⟨decide_eq_true (le_of_lt (h.1 b (by simp))), ih h.2⟩

theorem zip_filter_map_fst {α : Type} (P : ℤ → Bool) :
    ∀ (pos : List ℤ) (values : List α), pos.length = values.length →
      ((pos.zip values).filter fun x => P x.1).map Prod.fst = pos.filter P := by
  intro pos
  induction pos with
  | nil => intro values _; rfl
  | cons p ps ih =>
    intro values hlen
    cases values with
    | nil => cases hlen
    | cons v vs =>
      rw [List.zip_cons_cons, List.filter_cons, List.filter_cons]
      by_cases hP : P p
      · simp only [hP, if_pos, List.map_cons]
        rw [ih vs (by simpa using hlen)]
      · simp only [hP]
        rw [if_neg (by simp [hP]), if_neg (by simp [hP])]
        exact ih vs (by simpa using hlen)

theorem range_filter_map (l : List ℤ) (P : ℤ → Bool) :
    ((List.range l.length).filter fun i => P (l.getD i 0)).map (fun i => l.getD i 0) =
      l.filter P := by
  induction l with
  | nil => rfl
  | cons a t ih =>
    rw [List.length_cons, List.range_succ_eq_map, List.filter_cons]
    have hcomp : ((fun i => P ((a :: t).getD i 0)) ∘ Nat.succ) = fun i => P (t.getD i 0) := by
      funext i
      simp [Function.comp, List.getD_cons_succ]
    have hcomp2 : ((fun i => (a :: t).getD i 0) ∘ Nat.succ) = fun i => t.getD i 0 := by
      funext i
      simp [Function.comp, List.getD_cons_succ]
    by_cases hPa : P a
    · rw [if_pos (by simpa using hPa), List.map_cons]
      rw [List.filter_cons, if_pos (by simpa using hPa)]
      rw [List.filter_map, List.map_map, hcomp, hcomp2, ih]
      rfl
    · rw [if_neg (by simpa using hPa)]
      rw [List.filter_cons, if_neg (by simpa using hPa)]
      rw [List.filter_map, List.map_map, hcomp, hcomp2, ih]

theorem filter_mem_eq_of_subset :
    ∀ (target s : List ℤ), target.Pairwise (· < ·) → s.Pairwise (· < ·) →
      (∀ x ∈ s, x ∈ target) → (target.filter fun x => s.contains x) = s := by
  intro target
  induction target with
  | nil =>
    intro s _ _ hsub
    cases s with
    | nil => rfl
    | cons a as => exact absurd (hsub a (by simp)) (List.not_mem_nil a)
  | cons t ts ih =>
    intro s hpt hps hsub
    rw [List.pairwise_cons] at hpt
    cases s with
    | nil =>
      rw [List.filter_cons, if_neg (by simp)]
      have : ∀ x ∈ ts, ¬ (([] : List ℤ).contains x = true) := by simp
      rw [List.filter_congr (p := fun x => ([] : List ℤ).contains x)
        (q := fun _ => false) (by simp)]
      simp
    | cons a as =>
      rw [List.pairwise_cons] at hps
      by_cases hta : t = a
      · subst hta
        rw [List.filter_cons, if_pos (by simp)]
        congr 1
        have hstep : ∀ x ∈ ts, ((t :: as).contains x) = (as.contains x) := by
          intro x hx
          have hne : x ≠ t := by
            have := hpt.1 x hx
            omega
          simp [List.contains_cons, hne]
        rw [List.filter_congr hstep]
        exact ih as hpt.2 hps.2 fun x hx => by
          have hxt : x ∈ t :: ts := hsub x (by simp [hx])
          rcases List.mem_cons.mp hxt with rfl | h
          · exact absurd (hps.1 x hx) (lt_irrefl x)
          · exact h
      · have htns : t ∉ (a :: as) := by
          intro hmem
          rcases List.mem_cons.mp hmem with rfl | hmem'
          · exact hta rfl
          · -- t ∈ as: a < t; but a ∈ target = t :: ts, a ≠ t so a ∈ ts so t < a
            have ha : a ∈ t :: ts := hsub a (by simp)
            rcases List.mem_cons.mp ha with rfl | ha'
            · exact hta rfl
            · have h1 : t < a := hpt.1 a ha'
              have h2 : a < t := hps.1 t hmem'
              omega
        rw [List.filter_cons, if_neg (by simpa using htns)]
        exact ih (a :: as) hpt.2 (List.pairwise_cons.mpr hps) fun x hx => by
          have hxt : x ∈ t :: ts := hsub x hx
          rcases List.mem_cons.mp hxt with rfl | h
          · exact absurd hx htns
          · exact h

theorem scatter_cons {α : Type} (base : List α) (k : ℕ) (v : α) (rest : List (ℕ × α)) :
    scatter base ((k, v) :: rest) = scatter (base.set k v) rest := rfl

theorem scatter_length {α : Type} :
    ∀ (asg : List (ℕ × α)) (base : List α), (scatter base asg).length = base.length := by
  intro asg
  induction asg with
  | nil => intro base; rfl
  | cons kv rest ih =>
    intro base
    obtain ⟨k, v⟩ := kv
    rw [scatter_cons, ih, List.length_set]

theorem scatter_getD {α : Type} (nan : α) :
    ∀ (asg : List (ℕ × α)) (base : List α),
      (asg.map Prod.fst).Nodup →
      (∀ x ∈ asg, x.1 < base.length) →
      ∀ i, (scatter base asg).getD i nan =
        ((asg.find? fun x => decide (x.1 = i)).map Prod.snd).getD (base.getD i nan) := by
  intro asg
  induction asg with
  | nil => intro base _ _ i; rfl
  | cons kv rest ih =>
    intro base hnd hlt i
    obtain ⟨k, v⟩ := kv
    have hnd' : (rest.map Prod.fst).Nodup := (List.nodup_cons.mp (by simpa using hnd)).2
    have hknotin : k ∉ rest.map Prod.fst := (List.nodup_cons.mp (by simpa using hnd)).1
    rw [scatter_cons, ih (base.set k v) hnd'
      (fun x hx => by rw [List.length_set]; exact hlt x (by simp [hx])) i]
    by_cases hki : k = i
    · subst hki
      rw [List.find?_cons_of_pos _ (by simp)]
      have hnone : rest.find? (fun x => decide (x.1 = k)) = none := by
        rw [List.find?_eq_none]
        intro x hx
        simp only [decide_eq_true_iff]
        intro heq
        exact hknotin (heq ▸ List.mem_map_of_mem Prod.fst hx)
      rw [hnone]
      simp only [Option.map_none', Option.map_some', Option.getD_none, Option.getD_some]
      exact getD_set_self base k v nan (hlt (k, v) (by simp))
    · rw [List.find?_cons_of_neg _ (by simpa using hki)]
      rw [getD_set_ne base k i v nan hki]

theorem find?_zip_eq {α : Type} :
    ∀ (idx : List ℕ) (vals : List α) (k i : ℕ) (d : α),
      idx.Pairwise (· < ·) → idx.length = vals.length →
      k < idx.length → idx.getD k 0 = i →
      ((idx.zip vals).find? fun x => decide (x.1 = i)) = some (i, vals.getD k d) := by
  intro idx
  induction idx with
  | nil => intro vals k i d _ _ hk _; cases hk
  | cons a rest ih =>
    intro vals k i d hpw hlen hk hgetd
    cases vals with
    | nil => cases hlen
    | cons v vs =>
      rw [List.zip_cons_cons]
      cases k with
      | zero =>
        rw [List.getD_cons_zero] at hgetd
        subst hgetd
        rw [List.find?_cons_of_pos _ (by simp), List.getD_cons_zero]
      | succ k' =>
        rw [List.getD_cons_succ] at hgetd
        rw [List.length_cons] at hk
        have hk' : k' < rest.length := by omega
        have hne : ¬ (a = i) := by
          rw [List.pairwise_cons] at hpw
          have hmem : rest.getD k' 0 ∈ rest := getD_mem_of_lt rest k' 0 hk'
          have := hpw.1 _ hmem
          omega
        rw [List.find?_cons_of_neg _ (by simpa using hne), List.getD_cons_succ]
        exact ih vs k' i d (List.pairwise_cons.mp hpw).2 (by simpa using hlen) hk' hgetd

/-- C5: for a value vector at sorted (strictly increasing) source positions and
a sorted target grid, `map_values` returns a vector of length exactly
`len(target_pos)` whose entry at `i` is the `fill` sentinel when
`target_pos[i]` is not a source position, and the corresponding original value
when `target_pos[i]` equals source position `j`; values at source positions
absent from the target are silently dropped (they influence no output entry,
every entry being either the sentinel or the value of a matched position). -/
theorem map_values_align {α : Type} (values : List α) (pos target_pos : List ℤ) (nan : α)
    (hlen : values.length = pos.length)
    (hpos : pos.Pairwise (· < ·)) (htgt : target_pos.Pairwise (· < ·)) :
    ∃ out, map_values values pos target_pos nan = .ok out ∧
      out.length = target_pos.length ∧
      (∀ i, i < target_pos.length → target_pos.getD i 0 ∉ pos →
        out.getD i nan = nan) ∧
      (∀ i j, i < target_pos.length → j < pos.length →
        target_pos.getD i 0 = pos.getD j 0 →
        out.getD i nan = values.getD j nan) := by
  set pv := (pos.zip values).filter (fun x => target_pos.contains x.1) with hpv
  set pos2 := pv.map Prod.fst with hpos2
  set values2 := pv.map Prod.snd with hvalues2
  set idx := (List.range target_pos.length).filter
    (fun i => pos2.contains (target_pos.getD i 0)) with hidx
  have E1 : pos2 = pos.filter (fun p => target_pos.contains p) := by
    rw [hpos2, hpv]
    exact zip_filter_map_fst _ pos values hlen.symm
  have hpos2pw : pos2.Pairwise (· < ·) := by
    rw [E1]
    exact List.Pairwise.sublist (List.filter_sublist _) hpos
  have hpos2sub : ∀ x ∈ pos2, x ∈ target_pos := by
    intro x hx
    rw [E1, List.mem_filter] at hx
    simpa using hx.2
  have E2 : idx.map (fun i => target_pos.getD i 0) = pos2 := by
    rw [hidx, range_filter_map target_pos (fun x => pos2.contains x)]
    exact filter_mem_eq_of_subset target_pos pos2 htgt hpos2pw hpos2sub
  have E4 : idx.length = values2.length := by
    have h1 : idx.length = pos2.length := by
      rw [← E2, List.length_map]
    rw [h1, hpos2, hvalues2, List.length_map, List.length_map]
  have hidxpw : idx.Pairwise (· < ·) := by
    rw [hidx]
    exact List.Pairwise.sublist (List.filter_sublist _) (List.pairwise_lt_range _)
  have hidxlt : ∀ x ∈ idx, x < target_pos.length := by
    intro x hx
    rw [hidx, List.mem_filter, List.mem_range] at hx
    exact hx.1
  have hzipnd : ((idx.zip values2).map Prod.fst).Nodup := by
    rw [List.map_fst_zip idx values2 (by omega)]
    exact hidxpw.imp fun {a b} h => by rintro rfl; exact lt_irrefl a h
  have hziplt : ∀ x ∈ idx.zip values2,
      x.1 < (List.replicate target_pos.length nan).length := by
    rintro ⟨x1, x2⟩ hx
    rw [List.length_replicate]
    exact hidxlt x1 (List.of_mem_zip hx).1
  have hout : map_values values pos target_pos nan =
      .ok (scatter (List.replicate target_pos.length nan) (idx.zip values2)) := by
    rw [map_values]
    rw [if_neg (fun h => h hlen)]
    rw [if_neg (not_not_intro (np_is_sorted_of_pairwise pos hpos))]
    rw [if_neg (not_not_intro (np_is_sorted_of_pairwise target_pos htgt))]
    rw [if_neg (fun h => h E4)]
    rw [if_neg (fun h => h E2)]
  refine ⟨_, hout, ?_, ?_, ?_⟩
  · rw [scatter_length, List.length_replicate]
  · intro i hi hnot
    rw [scatter_getD nan (idx.zip values2) _ hzipnd hziplt i]
    have hfind : (idx.zip values2).find? (fun x => decide (x.1 = i)) = none := by
      rw [List.find?_eq_none]
      rintro ⟨x1, x2⟩ hx
      simp only [decide_eq_true_iff]
      rintro rfl
      have hmem : x1 ∈ idx := (List.of_mem_zip hx).1
      rw [hidx, List.mem_filter] at hmem
      have hmem2 : target_pos.getD x1 0 ∈ pos2 := by simpa using hmem.2
      rw [E1, List.mem_filter] at hmem2
      exact hnot hmem2.1
    rw [hfind]
    simp only [Option.map_none', Option.getD_none]
    exact getD_replicate_self _ _ _
  · intro i j hi hj hij
    have hjmem : pos.getD j 0 ∈ pos2 := by
      rw [E1, List.mem_filter]
      refine ⟨getD_mem_of_lt pos j 0 hj, ?_⟩
      have hmemt : pos.getD j 0 ∈ target_pos := by
        rw [← hij]
        exact getD_mem_of_lt target_pos i 0 hi
      simpa using hmemt
    have himem : i ∈ idx := by
      rw [hidx, List.mem_filter, List.mem_range]
      refine ⟨hi, ?_⟩
      rw [hij]
      simpa using hjmem
    obtain ⟨k, hk, hik⟩ := List.mem_iff_getElem.mp himem
    have hikD : idx.getD k 0 = i := by rw [getD_of_lt _ _ _ hk, hik]
    rw [scatter_getD nan (idx.zip values2) _ hzipnd hziplt i]
    rw [find?_zip_eq idx values2 k i nan hidxpw E4 hk hikD]
    simp only [Option.map_some', Option.getD_some]
    have hkpv : k < pv.length := by
      have h2 : k < values2.length := by omega
      rw [hvalues2, List.length_map] at h2
      exact h2
    have hpos2k : pos2.getD k 0 = pos.getD j 0 := by
      rw [← E2, getD_map_of_lt _ _ _ _ 0 hk, hikD, hij]
    have hpvk1 : (pv.getD k ((0 : ℤ), nan)).1 = pos.getD j 0 := by
      have hh := getD_map_of_lt Prod.fst pv k (0 : ℤ) ((0 : ℤ), nan) hkpv
      rw [← hpos2] at hh
      rw [← hh, hpos2k]
    have hvals2k : values2.getD k nan = (pv.getD k ((0 : ℤ), nan)).2 := by
      have hh := getD_map_of_lt Prod.snd pv k nan ((0 : ℤ), nan) hkpv
      rw [← hvalues2] at hh
      exact hh
    have hpvmem : pv.getD k ((0 : ℤ), nan) ∈ pos.zip values := by
      have hmem : pv.getD k ((0 : ℤ), nan) ∈ pv := getD_mem_of_lt pv k _ hkpv
      rw [hpv, List.mem_filter] at hmem
      exact hmem.1
    obtain ⟨m, hm, hmeq⟩ := List.mem_iff_getElem.mp hpvmem
    have hmlen : m < pos.length ∧ m < values.length := by
      rw [List.length_zip] at hm
      omega
    have hmeqD : (pos.getD m 0, values.getD m nan) = pv.getD k ((0 : ℤ), nan) := by
      rw [getD_of_lt pos m 0 hmlen.1, getD_of_lt values m nan hmlen.2, ← List.getElem_zip]
      exact hmeq
    have hfst : pos.getD m 0 = pos.getD j 0 := by
      have hh : pos.getD m 0 = (pv.getD k ((0 : ℤ), nan)).1 := congrArg Prod.fst hmeqD
      rw [hpvk1] at hh
      exact hh
    have hsnd : values.getD m nan = values2.getD k nan := by
      have hh : values.getD m nan = (pv.getD k ((0 : ℤ), nan)).2 := congrArg Prod.snd hmeqD
      rw [← hvals2k] at hh
      exact hh
    have hmj : m = j := by
      by_contra hne
      rcases Nat.lt_or_ge m j with hlt | hge
      · have hh := List.pairwise_iff_getElem.mp hpos m j hmlen.1 hj hlt
        rw [← getD_of_lt pos m 0 hmlen.1, ← getD_of_lt pos j 0 hj, hfst] at hh
        exact lt_irrefl _ hh
      · have hlt2 : j < m := by omega
        have hh := List.pairwise_iff_getElem.mp hpos j m hj hmlen.1 hlt2
        rw [← getD_of_lt pos m 0 hmlen.1, ← getD_of_lt pos j 0 hj, hfst] at hh
        exact lt_irrefl _ hh
    rw [← hsnd, hmj]

/-- Witness for C5: values `[9, 7, 8]` at positions `[5, 10, 30]` aligned onto
`[10, 20, 30, 40]`; position 5 is dropped, positions 20 and 40 get the
sentinel. -/
theorem map_values_align_witness :
    (([9, 7, 8] : List ℤ).length = ([5, 10, 30] : List ℤ).length) ∧
    ([5, 10, 30] : List ℤ).Pairwise (· < ·) ∧
    ([10, 20, 30, 40] : List ℤ).Pairwise (· < ·) ∧
    (∃ out, map_values ([9, 7, 8] : List ℤ) [5, 10, 30] [10, 20, 30, 40] (-1) = .ok out ∧
      out.length = ([10, 20, 30, 40] : List ℤ).length ∧
      (∀ i, i < ([10, 20, 30, 40] : List ℤ).length →
        ([10, 20, 30, 40] : List ℤ).getD i 0 ∉ ([5, 10, 30] : List ℤ) →
        out.getD i (-1) = -1) ∧
      (∀ i j, i < ([10, 20, 30, 40] : List ℤ).length → j < ([5, 10, 30] : List ℤ).length →
        ([10, 20, 30, 40] : List ℤ).getD i 0 = ([5, 10, 30] : List ℤ).getD j 0 →
        out.getD i (-1) = ([9, 7, 8] : List ℤ).getD j (-1))) :=
  ⟨by decide, by decide, by decide,
    map_values_align [9, 7, 8] [5, 10, 30] [10, 20, 30, 40] (-1) (by decide) (by decide)
      (by decide)⟩

end DeepCpg
